import Mathlib

/-!
# AAA Summarizer: parsing-and-aggregation engine, formalised

A shallow embedding of the REDCap CSV parsing-and-aggregation engine of the
AAA-Summarizer repository, together with the Raycast extension's selection
logic (`src/raycast-extension/src/index.tsx`).  The Python engine itself
(`src/parser.py`, `src/config.py`) is not part of the available sources, so
its components are modelled from the design specification (`spec.md`,
sections 3, 4 and 7); each such definition carries a `Modelled from the
spec:` note.  The Raycast definitions are translated from the TypeScript
source directly.
-/

namespace AAA

/-! ## Column Index Builder

Modelled from the spec: `src/parser.py` is absent; §4.1 describes a single
left-to-right scan over the header row, appending each position to the list
keyed by that column's name. -/

/-- Modelled from the spec: the left-to-right scan of §4.1, collecting the
positions (starting at offset `i`) at which `name` occurs in the remaining
header cells. -/
def scanPositions (name : String) : List String → Nat → List Nat
  | [], _ => []
  | h :: t, i =>
    if h = name then i :: scanPositions name t (i + 1)
    else scanPositions name t (i + 1)

/-- Modelled from the spec: the ColumnIndex of §3/§4.1 — for a header row,
the ordered list of zero-based positions at which a column name occurs. -/
def columnIndex (header : List String) (name : String) : List Nat :=
  scanPositions name header 0

theorem scanPositions_length (name : String) :
    ∀ (l : List String) (i : Nat), (scanPositions name l i).length = l.count name := by
  intro l
  induction l with
  | nil => intro i; simp [scanPositions]
  | cons h t ih =>
    intro i
    by_cases hh : h = name
    · simp [scanPositions, hh, List.count_cons, ih]
    · simp [scanPositions, hh, List.count_cons, ih]

theorem scanPositions_ge (name : String) :
    ∀ (l : List String) (i : Nat), ∀ j ∈ scanPositions name l i, i ≤ j := by
  intro l
  induction l with
  | nil => intro i j hj; simp [scanPositions] at hj
  | cons h t ih =>
    intro i j hj
    by_cases hh : h = name
    · simp only [scanPositions, if_pos hh, List.mem_cons] at hj
      rcases hj with rfl | hj
      · exact Nat.le_refl j
      · exact Nat.le_of_succ_le (ih (i + 1) j hj)
    · simp only [scanPositions, if_neg hh] at hj
      exact Nat.le_of_succ_le (ih (i + 1) j hj)

theorem scanPositions_pairwise (name : String) :
    ∀ (l : List String) (i : Nat), (scanPositions name l i).Pairwise (· < ·) := by
  intro l
  induction l with
  | nil => intro i; simp [scanPositions]
  | cons h t ih =>
    intro i
    by_cases hh : h = name
    · simp only [scanPositions, if_pos hh]
      refine List.pairwise_cons.mpr ⟨?_, ih (i + 1)⟩
      intro j hj
      exact Nat.lt_of_succ_le (scanPositions_ge name t (i + 1) j hj)
    · simp only [scanPositions, if_neg hh]
      exact ih (i + 1)

theorem scanPositions_mem (name : String) :
    ∀ (l : List String) (i j : Nat),
      j ∈ scanPositions name l i ↔ i ≤ j ∧ l[j - i]? = some name := by
  intro l
  induction l with
  | nil => intro i j; simp [scanPositions]
  | cons h t ih =>
    intro i j
    by_cases hh : h = name
    · simp only [scanPositions, if_pos hh, List.mem_cons, ih]
      constructor
      · rintro (rfl | ⟨hij, hget⟩)
        · subst hh; simp
        · refine ⟨Nat.le_of_succ_le hij, ?_⟩
          have : j - i = (j - (i + 1)) + 1 := by omega
          rw [this, List.getElem?_cons_succ]
          exact hget
      · rintro ⟨hij, hget⟩
        rcases Nat.eq_or_lt_of_le hij with rfl | hlt
        · exact Or.inl rfl
        · right
          refine ⟨hlt, ?_⟩
          have : j - i = (j - (i + 1)) + 1 := by omega
          rw [this, List.getElem?_cons_succ] at hget
          exact hget
    · simp only [scanPositions, if_neg hh, ih]
      constructor
      · rintro ⟨hij, hget⟩
        refine ⟨Nat.le_of_succ_le hij, ?_⟩
        have : j - i = (j - (i + 1)) + 1 := by omega
        rw [this, List.getElem?_cons_succ]
        exact hget
      · rintro ⟨hij, hget⟩
        rcases Nat.eq_or_lt_of_le hij with rfl | hlt
        · rw [Nat.sub_self, List.getElem?_cons_zero] at hget
          exact absurd (Option.some.inj hget) hh
        · refine ⟨hlt, ?_⟩
          have : j - i = (j - (i + 1)) + 1 := by omega
          rw [this, List.getElem?_cons_succ] at hget
          exact hget

theorem columnIndex_mem (header : List String) (name : String) (j : Nat) :
    j ∈ columnIndex header name ↔ header[j]? = some name := by
  unfold columnIndex
  rw [scanPositions_mem]
  simp

theorem columnIndex_length (header : List String) (name : String) :
    (columnIndex header name).length = header.count name :=
  scanPositions_length name header 0

/-! ## Field Accessor

Modelled from the spec: §4.2 — `value(row, columnName, occurrence)` looks up
the occurrence-th position for the column name in the ColumnIndex and
returns the cell there, or an explicit "absent" sentinel (here `none`) when
the name is unknown or the occurrence exceeds the available positions. -/

/-- Modelled from the spec: the Field Accessor of §4.2.  `none` is the
"absent" sentinel; a blank cell is returned as its (blank) string. -/
def fieldValue (header row : List String) (name : String) (occ : Nat) :
    Option String :=
  match (columnIndex header name)[occ]? with
  | none => none
  | some p => row[p]?

theorem fieldValue_isSome (header row : List String) (name : String) (occ : Nat)
    (hlen : row.length = header.length) :
    (fieldValue header row name occ).isSome ↔ occ < (columnIndex header name).length := by
  unfold fieldValue
  cases hp : (columnIndex header name)[occ]? with
  | none =>
    simp only [Option.isSome_none, Bool.false_eq_true, false_iff, Nat.not_lt]
    exact le_of_not_lt (fun h => by simp [List.getElem?_eq_getElem h] at hp)
  | some p =>
    have hpm : p ∈ columnIndex header name := List.getElem?_mem hp
    have hph : header[p]? = some name := (columnIndex_mem header name p).mp hpm
    have hplt : p < header.length := by
      by_contra hge
      rw [List.getElem?_eq_none (Nat.le_of_not_lt hge)] at hph
      exact Option.noConfusion hph
    have hrow : (row[p]?).isSome := by
      rw [List.getElem?_eq_getElem (hlen ▸ hplt)]
      rfl
    simp only [hrow, true_iff]
    exact (List.getElem?_eq_some.mp hp).1

/-! ## Repeating-Group Parser

Modelled from the spec: §4.3 — given a row, a repeating group's constituent
field names and the group's configured maximum occurrence count, emit the
per-occurrence field mappings of those occurrences in which at least one
constituent field is present and non-blank. -/

/-- Leading- and trailing-whitespace trimming, written over the character
list so that it is fully executable. -/
def trimStr (s : String) : String :=
  ⟨((s.data.dropWhile Char.isWhitespace).reverse.dropWhile Char.isWhitespace).reverse⟩

/-- Lower-casing, written over the character list. -/
def lowerStr (s : String) : String :=
  ⟨s.data.map Char.toLower⟩

/-- Decimal parse of a string, written over the character list: `some n`
exactly for non-empty all-digit strings. -/
def natOfStr (s : String) : Option Nat :=
  if s.data.isEmpty then none
  else s.data.foldl
    (fun acc c => acc.bind fun n =>
      if c.isDigit then some (n * 10 + (c.toNat - 48)) else none)
    (some 0)

/-- A blank string: empty or whitespace-only after trimming. -/
def isBlank (s : String) : Bool := trimStr s = ""

/-- Modelled from the spec: an occurrence is "submitted" when at least one
of its constituent fields is present and non-blank (§4.3). -/
def occPresent (header row : List String) (fields : List String) (occ : Nat) :
    Bool :=
  fields.any fun f =>
    match fieldValue header row f occ with
    | some s => !(isBlank s)
    | none => false

/-- Modelled from the spec: the per-occurrence field mapping of §4.3. -/
def occFields (header row : List String) (fields : List String) (occ : Nat) :
    List (String × Option String) :=
  fields.map fun f => (f, fieldValue header row f occ)

/-- Modelled from the spec: the Repeating-Group Parser of §4.3, emitting
the (finite, restartable) sequence of submitted occurrences, each tagged
with its occurrence number. -/
def parseGroup (header row : List String) (fields : List String) (maxOcc : Nat) :
    List (Nat × List (String × Option String)) :=
  ((List.range maxOcc).filter fun occ => occPresent header row fields occ).map
    fun occ => (occ, occFields header row fields occ)

theorem occPresent_iff (header row : List String) (fields : List String) (occ : Nat) :
    occPresent header row fields occ = true ↔
      ∃ f ∈ fields, ∃ s, fieldValue header row f occ = some s ∧ isBlank s = false := by
  unfold occPresent
  rw [List.any_eq_true]
  constructor
  · rintro ⟨f, hf, hmatch⟩
    refine ⟨f, hf, ?_⟩
    cases hv : fieldValue header row f occ with
    | none => rw [hv] at hmatch; exact absurd hmatch (by simp)
    | some s =>
      rw [hv] at hmatch
      exact ⟨s, rfl, by simpa using hmatch⟩
  · rintro ⟨f, hf, s, hv, hb⟩
    exact ⟨f, hf, by rw [hv]; simpa using hb⟩

theorem parseGroup_mem (header row : List String) (fields : List String)
    (maxOcc occ : Nat) (m : List (String × Option String)) :
    (occ, m) ∈ parseGroup header row fields maxOcc ↔
      occ < maxOcc ∧ occPresent header row fields occ = true ∧
        m = occFields header row fields occ := by
  unfold parseGroup
  rw [List.mem_map]
  constructor
  · rintro ⟨o, ho, heq⟩
    rw [List.mem_filter, List.mem_range] at ho
    obtain ⟨rfl, rfl⟩ : o = occ ∧ m = occFields header row fields o := by
      have h1 := congrArg Prod.fst heq
      have h2 := congrArg Prod.snd heq
      simp at h1 h2
      exact ⟨h1, h2.symm⟩
    exact ⟨ho.1, ho.2, rfl⟩
  · rintro ⟨hlt, hpres, rfl⟩
    exact ⟨occ, List.mem_filter.mpr ⟨List.mem_range.mpr hlt, hpres⟩, rfl⟩

/-! ## Data model

Modelled from the spec: §3 — ActivityRecord, QuarterSubmission,
FacultyRecord, CategoryConfig, and the error taxonomy of §7. -/

/-- Completion status of a submission or aggregated record (§3). -/
inductive Status where
  | COMPLETE
  | INCOMPLETE
deriving DecidableEq

/-- Modelled from the spec: the error taxonomy of §7 (`AbsentField` is not
an error; it is the `none` sentinel of `fieldValue`). -/
inductive EngineError where
  | MalformedRow (rowIndex : Nat)
  | ConfigurationError (categoryKey : String)
deriving DecidableEq

/-- Modelled from the spec: §4.6 — a category's point-computation rule is
either a fixed per-entry value or a count-driven per-entry formula reading
a descriptive field. -/
inductive PointRule where
  | fixed (n : Nat)
  | perCount (field : String) (multiplier : Nat)
deriving DecidableEq

/-- Modelled from the spec: one CategoryConfig entry (§3): display name,
point rule, parent group. -/
structure CategoryEntry where
  displayName : String
  rule : PointRule
  group : String
deriving DecidableEq

/-- Modelled from the spec: CategoryConfig (§3) — static mapping from
dotted category key to its entry. -/
abbrev CategoryConfig := List (String × CategoryEntry)

/-- Look up a category key in the configuration. -/
def lookupCat (cfg : CategoryConfig) (key : String) : Option CategoryEntry :=
  (cfg.find? fun p => p.1 = key).map Prod.snd

/-- Modelled from the spec: ActivityRecord (§3) — category key, descriptive
fields, points, source quarter. -/
structure ActivityRecord where
  category : String
  fields : List (String × String)
  points : Nat
  sourceQuarter : String
deriving DecidableEq

/-- Modelled from the spec: QuarterSubmission (§3) — one row's parsed
result. -/
structure QuarterSubmission where
  identity : String
  name : String
  quarter : String
  status : Status
  activities : List ActivityRecord
deriving DecidableEq

/-- Modelled from the spec: FacultyRecord (§3).  The per-category mapping
and the point totals are derived functions of the merged activity list
(recomputed after folding, per §4.5), so only the merged list is stored. -/
structure FacultyRecord where
  name : String
  key : String
  quarters : List String
  status : Status
  activities : List ActivityRecord
deriving DecidableEq

/-! ## Point Calculator

Modelled from the spec: §4.6 — fixed per-entry points or a count-based
formula; a category key absent from CategoryConfig is a fatal
`ConfigurationError`, never a silent zero. -/

/-- Modelled from the spec: the Point Calculator of §4.6. -/
def calcPoints (cfg : CategoryConfig) (key : String)
    (fields : List (String × String)) : Except EngineError Nat :=
  match lookupCat cfg key with
  | none => .error (.ConfigurationError key)
  | some entry =>
    match entry.rule with
    | .fixed n => .ok n
    | .perCount f mult => .ok (mult * (((fields.lookup f).bind natOfStr).getD 0))

theorem calcPoints_unknown (cfg : CategoryConfig) (key : String)
    (fields : List (String × String)) (h : lookupCat cfg key = none) :
    calcPoints cfg key fields = .error (.ConfigurationError key) := by
  unfold calcPoints
  rw [h]

/-! ## Quarter Submission Parser

Modelled from the spec: §4.4 — identity extraction (email lower-cased and
trimmed, trimmed-name fallback, `MalformedRow` when both are missing),
status mapping (anything but the exact "Complete" token is `INCOMPLETE`),
and per-category activity construction via the Point Calculator. -/

/-- An optional field is missing when absent or blank. -/
def blankOpt (o : Option String) : Bool :=
  match o with
  | none => true
  | some s => isBlank s

/-- Modelled from the spec: the per-row input of the Quarter Submission
Parser at the design level of §4.4 — identity fields, quarter label,
raw completion-status value, and per-category repeating-group occurrence
data (each occurrence a descriptive field mapping). -/
structure RawRow where
  rowIndex : Nat
  email : Option String
  fullName : Option String
  quarter : String
  statusField : String
  groupData : List (String × List (List (String × String)))
deriving DecidableEq

/-- Modelled from the spec: the identity key policy of §4.4 — normalized
email when present, trimmed full name as fallback, `MalformedRow` with the
row index when both are missing. -/
def identityKey (email fullName : Option String) (rowIndex : Nat) :
    Except EngineError String :=
  if blankOpt email = false then .ok (lowerStr (trimStr (email.getD "")))
  else if blankOpt fullName = false then .ok (trimStr (fullName.getD ""))
  else .error (.MalformedRow rowIndex)

/-- Modelled from the spec: the status mapping of §4.4 — only the exact
"Complete" token is `COMPLETE`. -/
def parseStatus (s : String) : Status :=
  if s = "Complete" then .COMPLETE else .INCOMPLETE

/-- Build one ActivityRecord from one occurrence's descriptive fields via
the Point Calculator, tagging the row's quarter label (§4.4). -/
def mkActivity (cfg : CategoryConfig) (quarter key : String)
    (fields : List (String × String)) : Except EngineError ActivityRecord :=
  (calcPoints cfg key fields).map fun p =>
    { category := key, fields := fields, points := p, sourceQuarter := quarter }

/-- Build the ActivityRecords of one category's occurrence list, in
order, propagating the first Point Calculator failure. -/
def mkActivities (cfg : CategoryConfig) (quarter key : String) :
    List (List (String × String)) → Except EngineError (List ActivityRecord)
  | [] => .ok []
  | fields :: rest => do
    let a ← mkActivity cfg quarter key fields
    let as ← mkActivities cfg quarter key rest
    return a :: as

/-- Modelled from the spec: building the row's ordered activity list from
its per-category occurrence data (§4.4). -/
def parseActivities (cfg : CategoryConfig) (quarter : String) :
    List (String × List (List (String × String))) →
      Except EngineError (List ActivityRecord)
  | [] => .ok []
  | (key, occs) :: rest => do
    let xs ← mkActivities cfg quarter key occs
    let ys ← parseActivities cfg quarter rest
    return xs ++ ys

/-- Modelled from the spec: the Quarter Submission Parser of §4.4,
producing exactly one QuarterSubmission per row or a labeled failure. -/
def parseSubmission (cfg : CategoryConfig) (r : RawRow) :
    Except EngineError QuarterSubmission := do
  let k ← identityKey r.email r.fullName r.rowIndex
  let acts ← parseActivities cfg r.quarter r.groupData
  return { identity := k, name := (r.fullName.getD ""),
           quarter := r.quarter, status := parseStatus r.statusField,
           activities := acts }

/-! ## Aggregator

Modelled from the spec: §4.5 — fold QuarterSubmissions in file-row order
into an identity-keyed mapping of FacultyRecords: quarters unioned in
first-appearance order, activity lists concatenated, "worst status wins"
status merge, first-seen name never overwritten by a blank, point totals
recomputed afterwards as pure functions of the merged activity list. -/

/-- Modelled from the spec: the "worst status wins" merge of §4.5. -/
def mergeStatus (a b : Status) : Status :=
  match a, b with
  | .COMPLETE, .COMPLETE => .COMPLETE
  | _, _ => .INCOMPLETE

/-- Modelled from the spec: a FacultyRecord created from the first
submission seen for an identity (§3 lifecycle). -/
def initRecord (s : QuarterSubmission) : FacultyRecord :=
  { name := s.name, key := s.identity, quarters := [s.quarter],
    status := s.status, activities := s.activities }

/-- Modelled from the spec: folding one further submission for the same
identity into an existing FacultyRecord (§4.5). -/
def foldSubmission (fr : FacultyRecord) (s : QuarterSubmission) : FacultyRecord :=
  { name := if isBlank fr.name then s.name else fr.name,
    key := fr.key,
    quarters := if s.quarter ∈ fr.quarters then fr.quarters
                else fr.quarters ++ [s.quarter],
    status := mergeStatus fr.status s.status,
    activities := fr.activities ++ s.activities }

/-- Fold an identity's later submissions, in order, into the record made
from its first submission. -/
def aggOne (s : QuarterSubmission) (rest : List QuarterSubmission) : FacultyRecord :=
  rest.foldl foldSubmission (initRecord s)

/-- Insert one submission into the identity-keyed record list, folding
into an existing entry or appending a fresh one (§4.5). -/
def insertSub (m : List (String × FacultyRecord)) (s : QuarterSubmission) :
    List (String × FacultyRecord) :=
  match m with
  | [] => [(s.identity, initRecord s)]
  | (k, fr) :: rest =>
    if k = s.identity then (k, foldSubmission fr s) :: rest
    else (k, fr) :: insertSub rest s

/-- Modelled from the spec: the Aggregator of §4.5 — fold all parsed
submissions, in file-row order, into the identity → FacultyRecord mapping. -/
def aggregate (subs : List QuarterSubmission) : List (String × FacultyRecord) :=
  subs.foldl insertSub []

/-! ### Derived point totals (recomputed after folding, §4.5) -/

/-- Points summed over an activity list. -/
def sumPoints (acts : List ActivityRecord) : Nat :=
  (acts.map ActivityRecord.points).sum

/-- Grand total of a FacultyRecord: a pure function of its merged
activity list. -/
def grandTotal (fr : FacultyRecord) : Nat :=
  sumPoints fr.activities

/-- Per-category total: a pure function of the merged activity list. -/
def categoryTotal (fr : FacultyRecord) (cat : String) : Nat :=
  sumPoints (fr.activities.filter fun a => a.category = cat)

/-- Per-group total: points of activities whose category's parent group is
`g`, per the CategoryConfig. -/
def groupTotal (cfg : CategoryConfig) (fr : FacultyRecord) (g : String) : Nat :=
  sumPoints (fr.activities.filter fun a =>
    ((lookupCat cfg a.category).map CategoryEntry.group) = some g)

/-! ## Run-level pipeline

Modelled from the spec: §7 — `MalformedRow` failures are collected (with
their row indices) and reported alongside the aggregated mapping;
`ConfigurationError` aborts the whole aggregation pass. -/

/-- Every category key appearing in any row's repeating-group data that has
no CategoryConfig entry (first one found), if any. -/
def findUnknownCat (cfg : CategoryConfig) (rows : List RawRow) : Option String :=
  ((rows.flatMap fun r => r.groupData.map Prod.fst).filter fun k =>
    (lookupCat cfg k).isNone).head?

/-- Modelled from the spec: parse all rows in order, collecting
`MalformedRow` indices and aborting on `ConfigurationError` (§7). -/
def parseRows (cfg : CategoryConfig) :
    List RawRow → Except EngineError (List QuarterSubmission × List Nat)
  | [] => .ok ([], [])
  | r :: rest => do
    let (ss, es) ← parseRows cfg rest
    match parseSubmission cfg r with
    | .ok s => return (s :: ss, es)
    | .error (.MalformedRow i) => return (ss, i :: es)
    | .error (.ConfigurationError k) => .error (.ConfigurationError k)

/-- Modelled from the spec: one whole aggregation pass (§4.5, §7): abort
with `ConfigurationError` when any row carries an unconfigured category
key, otherwise return the aggregated mapping together with the collected
malformed-row indices. -/
def runAggregation (cfg : CategoryConfig) (rows : List RawRow) :
    Except EngineError (List (String × FacultyRecord) × List Nat) :=
  match findUnknownCat cfg rows with
  | some k => .error (.ConfigurationError k)
  | none => (parseRows cfg rows).map fun p => (aggregate p.1, p.2)

end AAA

namespace Raycast

/-! ## Raycast extension selection logic

Translated from `src/raycast-extension/src/index.tsx`.  The selection state
is a JS `Set<string>`; only membership matters to the behaviour below, so
it is embedded as a `Finset String`. -/

/-- `toggleSelection` of `index.tsx` (lines 271–279 and 480–488): copy
the set, delete the key when present, add it when absent. -/
def toggleSelection (selected : Finset String) (key : String) : Finset String :=
  if key ∈ selected then selected.erase key else insert key selected

/-- The observable effect of the "Export Selected" `onAction` handlers:
either a failure toast, or pushing the export form with the selected
items. -/
inductive ExportAction where
  | failureToast (title : String)
  | pushExport (items : Finset String)
deriving DecidableEq

/-- `SelectFaculty`'s "Export Selected" handler (`index.tsx`, lines
317–327 and 350–359): empty selection shows a failure toast and returns;
otherwise the export form is pushed with `Array.from(selected)`. -/
def exportSelectedFaculty (selected : Finset String) : ExportAction :=
  if selected.card = 0 then .failureToast "No faculty selected"
  else .pushExport selected

/-- `SelectActivities`'s "Export Selected" handler (`index.tsx`, lines
529–539 and 560–569). -/
def exportSelectedActivities (selected : Finset String) : ExportAction :=
  if selected.card = 0 then .failureToast "No activities selected"
  else .pushExport selected

/-- `ExportFacultySummaries.handleExport` (`index.tsx`, lines 370–410)
invokes the CLI `summary` command with one `-f` argument per selected
email; modelled as the argument list handed to the CLI. -/
def facultyCliArgs (selectedEmails : List String) : List String :=
  selectedEmails.map fun e => "-f " ++ e

/-- `ExportActivityReports.handleExport` (`index.tsx`, lines 581–617)
invokes the CLI `activity` command with one `-t` argument per selected
activity key. -/
def activityCliArgs (selectedActivities : List String) : List String :=
  selectedActivities.map fun a => "-t " ++ a

end Raycast

namespace AAA

/-! ## Claim theorems -/

/-- Claim C7: for every header row and every column name occurring `k`
times in it, the ColumnIndex maps that name to exactly `k` zero-based
positions, in strictly increasing left-to-right order, covering every
occurrence exactly once; names absent from the header map to the empty
list (and the builder, being a total function, never fails). -/
theorem column_index_builder_correct (header : List String) (name : String) :
    (columnIndex header name).length = header.count name ∧
    (columnIndex header name).Pairwise (· < ·) ∧
    (∀ j, j ∈ columnIndex header name ↔ header[j]? = some name) ∧
    (name ∉ header → columnIndex header name = []) := by
  refine ⟨columnIndex_length header name, scanPositions_pairwise name header 0,
    columnIndex_mem header name, ?_⟩
  intro h
  have hc : header.count name = 0 := List.count_eq_zero.mpr h
  have hl := columnIndex_length header name
  rw [hc] at hl
  exact List.eq_nil_of_length_eq_zero hl

/-- Witness for C7 at a concrete header with a duplicated name and an
absent name. -/
theorem column_index_builder_correct_witness :
    columnIndex ["A", "B", "A"] "A" = [0, 2] ∧ columnIndex ["A", "B", "A"] "C" = [] :=
  ⟨by decide, (column_index_builder_correct ["A", "B", "A"] "C").2.2.2 (by decide)⟩

theorem fieldValue_eq_of_pos (header row : List String) (name : String)
    (occ p : Nat) (hp : (columnIndex header name)[occ]? = some p) :
    fieldValue header row name occ = row[p]? := by
  unfold fieldValue
  rw [hp]

/-- Claim C8: for every row, column name and occurrence number, the Field
Accessor totally returns either the cell string or the explicit absent
sentinel (`none`) and never throws: it is absent exactly when the name is
unknown in the ColumnIndex or the occurrence exceeds the available
positions, and otherwise it returns the cell string itself — an empty or
whitespace-only cell is returned as that string, never normalized to
absent. -/
theorem field_accessor_total_correct (header row : List String) (name : String)
    (occ : Nat) (hlen : row.length = header.length) :
    (fieldValue header row name occ = none ↔ (columnIndex header name).length ≤ occ) ∧
    (∀ p, (columnIndex header name)[occ]? = some p →
      ∃ cell, row[p]? = some cell ∧ fieldValue header row name occ = some cell) := by
  constructor
  · rw [← Option.not_isSome_iff_eq_none, fieldValue_isSome header row name occ hlen]
    omega
  · intro p hp
    have hpm : p ∈ columnIndex header name := List.getElem?_mem hp
    have hph : header[p]? = some name := (columnIndex_mem header name p).mp hpm
    have hplt : p < header.length := by
      by_contra hge
      rw [List.getElem?_eq_none (Nat.le_of_not_lt hge)] at hph
      exact Option.noConfusion hph
    have hrlt : p < row.length := hlen ▸ hplt
    refine ⟨row[p], List.getElem?_eq_getElem hrlt, ?_⟩
    rw [fieldValue_eq_of_pos header row name occ p hp]
    exact List.getElem?_eq_getElem hrlt

/-- Witness for C8: second occurrence of a duplicated column, whose cell is
whitespace-only and is returned as that string, not as absent. -/
theorem field_accessor_total_correct_witness :
    ∃ cell, (["x", "", " "] : List String)[2]? = some cell ∧
      fieldValue ["A", "B", "A"] ["x", "", " "] "A" 1 = some cell :=
  (field_accessor_total_correct ["A", "B", "A"] ["x", "", " "] "A" 1 (by decide)).2
    2 (by decide)

/-- Claim C6: for every row and repeating field group, an occurrence is in
the Repeating-Group Parser's output exactly when at least one of its
constituent fields is present and non-blank; an occurrence whose
constituent fields are all absent or blank is excluded (no phantom
entries). -/
theorem repeating_group_inclusion (header row fields : List String)
    (maxOcc occ : Nat) (m : List (String × Option String)) :
    (occ, m) ∈ parseGroup header row fields maxOcc ↔
      occ < maxOcc ∧ m = occFields header row fields occ ∧
        ∃ f ∈ fields, ∃ s, fieldValue header row f occ = some s ∧
          isBlank s = false := by
  rw [parseGroup_mem]
  constructor
  · rintro ⟨hlt, hpres, rfl⟩
    exact ⟨hlt, rfl, (occPresent_iff header row fields occ).mp hpres⟩
  · rintro ⟨hlt, rfl, hex⟩
    exact ⟨hlt, (occPresent_iff header row fields occ).mpr hex, rfl⟩

/-- Witness for C6: an occurrence with a non-blank field is included; the
all-blank occurrence of a blank row is excluded. -/
theorem repeating_group_inclusion_witness :
    (0, occFields ["A"] ["x"] ["A"] 0) ∈ parseGroup ["A"] ["x"] ["A"] 3 ∧
    ∀ m, (0, m) ∉ parseGroup ["A"] [""] ["A"] 3 := by
  constructor
  · exact (repeating_group_inclusion ["A"] ["x"] ["A"] 3 0 _).mpr
      ⟨by decide, rfl, "A", by decide, "x", by decide, by decide⟩
  · intro m hm
    rcases (repeating_group_inclusion ["A"] [""] ["A"] 3 0 m).mp hm with
      ⟨-, -, f, hf, s, hv, hb⟩
    have hfa : f = "A" := by simpa using hf
    subst hfa
    have hv0 : fieldValue ["A"] [""] "A" 0 = some "" := by decide
    rw [hv0] at hv
    cases Option.some.inj hv
    exact absurd hb (by decide)

end AAA

namespace Raycast

theorem toggleSelection_of_mem {s : Finset String} {k : String} (h : k ∈ s) :
    toggleSelection s k = s.erase k := if_pos h

theorem toggleSelection_of_not_mem {s : Finset String} {k : String} (h : k ∉ s) :
    toggleSelection s k = insert k s := if_neg h

/-- Claim C9: in the Raycast selection screens, `toggleSelection` is a
self-inverse update of the selected set: one application adds the key when
it is absent and removes it when it is present, leaves every other key's
membership unchanged, and applying it twice with the same key restores the
original selection set. -/
theorem toggle_selection_self_inverse (s : Finset String) (k : String) :
    (k ∈ toggleSelection s k ↔ k ∉ s) ∧
    (∀ k', k' ≠ k → (k' ∈ toggleSelection s k ↔ k' ∈ s)) ∧
    toggleSelection (toggleSelection s k) k = s := by
  by_cases hk : k ∈ s
  · rw [toggleSelection_of_mem hk]
    refine ⟨by simp [hk], fun k' hne => by simp [Finset.mem_erase, hne], ?_⟩
    rw [toggleSelection_of_not_mem (Finset.not_mem_erase k s),
      Finset.insert_erase hk]
  · rw [toggleSelection_of_not_mem hk]
    refine ⟨by simp [hk], fun k' hne => by simp [Finset.mem_insert, hne], ?_⟩
    rw [toggleSelection_of_mem (Finset.mem_insert_self k s),
      Finset.erase_insert hk]

/-- Witness for C9 at a concrete selection set and keys. -/
theorem toggle_selection_self_inverse_witness :
    ("b" ∈ toggleSelection {"b"} "a" ↔ "b" ∈ ({"b"} : Finset String)) ∧
    toggleSelection (toggleSelection {"b"} "a") "a" = {"b"} :=
  ⟨(toggle_selection_self_inverse {"b"} "a").2.1 "b" (by decide),
   (toggle_selection_self_inverse {"b"} "a").2.2⟩

/-- Claim C10: the "Export Selected" action never starts an export with an
empty selection: on both the faculty and the activity selection screens, an
empty selected set yields a failure toast and no push of the export form,
and the export form (hence the export CLI command) is reached only when at
least one item is selected. -/
theorem export_selected_empty_guard (s : Finset String) :
    (s = ∅ → exportSelectedFaculty s = .failureToast "No faculty selected" ∧
      exportSelectedActivities s = .failureToast "No activities selected") ∧
    (∀ items, exportSelectedFaculty s = .pushExport items →
      s.Nonempty ∧ items = s) ∧
    (∀ items, exportSelectedActivities s = .pushExport items →
      s.Nonempty ∧ items = s) := by
  refine ⟨?_, ?_, ?_⟩
  · rintro rfl
    exact ⟨rfl, rfl⟩
  · intro items h
    unfold exportSelectedFaculty at h
    by_cases hc : s.card = 0
    · rw [if_pos hc] at h
      exact absurd h (by simp)
    · rw [if_neg hc] at h
      cases h
      exact ⟨Finset.card_pos.mp (Nat.pos_of_ne_zero hc), rfl⟩
  · intro items h
    unfold exportSelectedActivities at h
    by_cases hc : s.card = 0
    · rw [if_pos hc] at h
      exact absurd h (by simp)
    · rw [if_neg hc] at h
      cases h
      exact ⟨Finset.card_pos.mp (Nat.pos_of_ne_zero hc), rfl⟩

/-- Witness for C10 at the empty selection and a one-element selection. -/
theorem export_selected_empty_guard_witness :
    (exportSelectedFaculty ∅ = .failureToast "No faculty selected" ∧
     exportSelectedActivities ∅ = .failureToast "No activities selected") ∧
    ({"x"} : Finset String).Nonempty :=
  ⟨(export_selected_empty_guard ∅).1 rfl,
   ((export_selected_empty_guard {"x"}).2.1 {"x"} (by decide)).1⟩

end Raycast

namespace AAA

theorem mergeStatus_eq_complete (a b : Status) :
    mergeStatus a b = .COMPLETE ↔ a = .COMPLETE ∧ b = .COMPLETE := by
  cases a <;> cases b <;> simp [mergeStatus]

theorem status_complete_or_incomplete (st : Status) :
    st = .COMPLETE ∨ st = .INCOMPLETE := by
  cases st
  · exact Or.inl rfl
  · exact Or.inr rfl

theorem foldl_status (l : List QuarterSubmission) :
    ∀ fr : FacultyRecord,
      (l.foldl foldSubmission fr).status = .COMPLETE ↔
        fr.status = .COMPLETE ∧ ∀ t ∈ l, t.status = .COMPLETE := by
  induction l with
  | nil => intro fr; simp
  | cons s t ih =>
    intro fr
    rw [List.foldl_cons, ih]
    have hfold : (foldSubmission fr s).status = mergeStatus fr.status s.status := rfl
    rw [hfold, mergeStatus_eq_complete]
    constructor
    · rintro ⟨⟨hfr, hs⟩, ht⟩
      refine ⟨hfr, ?_⟩
      intro u hu
      rcases List.mem_cons.mp hu with rfl | hu
      · exact hs
      · exact ht u hu
    · rintro ⟨hfr, hall⟩
      exact ⟨⟨hfr, hall s (List.mem_cons_self s t)⟩,
        fun u hu => hall u (List.mem_cons_of_mem s hu)⟩

theorem aggOne_status_complete (s : QuarterSubmission)
    (rest : List QuarterSubmission) :
    (aggOne s rest).status = .COMPLETE ↔
      s.status = .COMPLETE ∧ ∀ t ∈ rest, t.status = .COMPLETE := by
  unfold aggOne
  rw [foldl_status]
  have : (initRecord s).status = s.status := rfl
  rw [this]

/-- Claim C2: for every identity and every finite sequence of
QuarterSubmissions folded into its FacultyRecord, if any folded-in
submission is `INCOMPLETE` then the merged status is `INCOMPLETE`, no
matter how many later `COMPLETE` submissions are folded in afterward; the
merged status is `COMPLETE` only when every contributing submission is
`COMPLETE`. -/
theorem status_merge_monotonic (s : QuarterSubmission)
    (rest more : List QuarterSubmission) :
    ((s.status = .INCOMPLETE ∨ ∃ t ∈ rest, t.status = .INCOMPLETE) →
      (∀ u ∈ more, u.status = .COMPLETE) →
      (aggOne s (rest ++ more)).status = .INCOMPLETE) ∧
    ((aggOne s rest).status = .COMPLETE ↔
      s.status = .COMPLETE ∧ ∀ t ∈ rest, t.status = .COMPLETE) := by
  refine ⟨?_, aggOne_status_complete s rest⟩
  intro hbad _
  rcases status_complete_or_incomplete (aggOne s (rest ++ more)).status with hc | hi
  · rcases (aggOne_status_complete s (rest ++ more)).mp hc with ⟨hs, hall⟩
    rcases hbad with hbad | ⟨t, ht, hbad⟩
    · rw [hs] at hbad
      exact absurd hbad (by simp)
    · have := hall t (List.mem_append_left more ht)
      rw [this] at hbad
      exact absurd hbad (by simp)
  · exact hi

/-- Witness for C2: an incomplete first submission stays incomplete after a
later complete one is folded in. -/
theorem status_merge_monotonic_witness :
    (aggOne ⟨"a@x.edu", "A", "Q1", .INCOMPLETE, []⟩
      ([] ++ [⟨"a@x.edu", "A", "Q3", .COMPLETE, []⟩])).status = .INCOMPLETE :=
  (status_merge_monotonic ⟨"a@x.edu", "A", "Q1", .INCOMPLETE, []⟩ []
    [⟨"a@x.edu", "A", "Q3", .COMPLETE, []⟩]).1 (Or.inl rfl)
    (by intro u hu; rcases List.mem_singleton.mp hu with rfl; rfl)

theorem foldl_activities (l : List QuarterSubmission) :
    ∀ fr : FacultyRecord,
      (l.foldl foldSubmission fr).activities =
        fr.activities ++ l.flatMap QuarterSubmission.activities := by
  induction l with
  | nil => intro fr; simp
  | cons s t ih =>
    intro fr
    rw [List.foldl_cons, ih]
    have : (foldSubmission fr s).activities = fr.activities ++ s.activities := rfl
    rw [this, List.flatMap_cons, List.append_assoc]

theorem aggOne_activities (s : QuarterSubmission) (rest : List QuarterSubmission) :
    (aggOne s rest).activities =
      (s :: rest).flatMap QuarterSubmission.activities := by
  unfold aggOne
  rw [foldl_activities, List.flatMap_cons]
  rfl

theorem sumPoints_perm {l₁ l₂ : List ActivityRecord} (h : l₁.Perm l₂) :
    sumPoints l₁ = sumPoints l₂ :=
  (h.map ActivityRecord.points).sum_eq

theorem foldl_name (l : List QuarterSubmission) :
    ∀ fr : FacultyRecord, isBlank fr.name = false →
      (l.foldl foldSubmission fr).name = fr.name := by
  induction l with
  | nil => intro fr _; rfl
  | cons s t ih =>
    intro fr hb
    rw [List.foldl_cons]
    have hfold : (foldSubmission fr s).name = fr.name := by
      unfold foldSubmission
      simp only [hb, Bool.false_eq_true, if_false]
    rw [ih (foldSubmission fr s) (by rw [hfold]; exact hb), hfold]

/-- Claim C3: permuting the order in which one identity's quarter
submissions are folded in leaves the per-category, per-group and grand
point totals and the multiset of merged activities unchanged (totals being
recomputed after folding as pure functions of the merged activity list);
the displayed name is the first-seen name, so when the first submission
carries a non-blank name, reordering the subsequently folded submissions
does not change which name was captured. -/
theorem aggregation_order_invariant (cfg : CategoryConfig)
    (s₁ s₂ : QuarterSubmission) (r₁ r₂ : List QuarterSubmission)
    (hp : (s₁ :: r₁).Perm (s₂ :: r₂)) :
    (aggOne s₁ r₁).activities.Perm (aggOne s₂ r₂).activities ∧
    grandTotal (aggOne s₁ r₁) = grandTotal (aggOne s₂ r₂) ∧
    (∀ c, categoryTotal (aggOne s₁ r₁) c = categoryTotal (aggOne s₂ r₂) c) ∧
    (∀ g, groupTotal cfg (aggOne s₁ r₁) g = groupTotal cfg (aggOne s₂ r₂) g) ∧
    (isBlank s₁.name = false →
      ∀ r', r'.Perm r₁ → (aggOne s₁ r').name = s₁.name) := by
  have hact : (aggOne s₁ r₁).activities.Perm (aggOne s₂ r₂).activities := by
    rw [aggOne_activities, aggOne_activities]
    exact hp.flatMap_right QuarterSubmission.activities
  refine ⟨hact, sumPoints_perm hact, fun c => sumPoints_perm (hact.filter _),
    fun g => sumPoints_perm (hact.filter _), ?_⟩
  intro hb r' _
  unfold aggOne
  exact foldl_name r' (initRecord s₁) hb

/-! ### Concrete demo data for the round-trip scenario -/

/-- The CategoryConfig of the round-trip scenario: `research.grant_awards`
worth a fixed 500 points under group `research`, `education.lectures` a
fixed 250 under `education`. -/
def cfgDemo : CategoryConfig :=
  [("research.grant_awards", ⟨"Grant Awards", .fixed 500, "research"⟩),
   ("education.lectures", ⟨"Lectures & Curriculum", .fixed 250, "education"⟩)]

/-- Row 1 of the round-trip scenario: quarter "Q1", status Complete, one
activity in `research.grant_awards`. -/
def rowQ1 : RawRow :=
  ⟨0, some "a@x.edu", some "Alice", "Q1", "Complete",
   [("research.grant_awards", [[("title", "R01 award")]])]⟩

/-- Row 2 of the round-trip scenario: quarter "Q3", status Incomplete, one
activity in `education.lectures`. -/
def rowQ3 : RawRow :=
  ⟨1, some "a@x.edu", some "Alice", "Q3", "Incomplete",
   [("education.lectures", [[("title", "Grand rounds")]])]⟩

/-- The aggregated FacultyRecord the round-trip scenario must produce. -/
def frDemo : FacultyRecord :=
  ⟨"Alice", "a@x.edu", ["Q1", "Q3"], .INCOMPLETE,
   [⟨"research.grant_awards", [("title", "R01 award")], 500, "Q1"⟩,
    ⟨"education.lectures", [("title", "Grand rounds")], 250, "Q3"⟩]⟩

/-- Claim C1: for the two-row input for identity `a@x.edu` — row 1 with
quarter "Q1", status Complete and one 500-point activity in
`research.grant_awards`; row 2 with quarter "Q3", status Incomplete and
one 250-point activity in `education.lectures` — aggregation yields
exactly one FacultyRecord, keyed `a@x.edu`, with quarter set
{"Q1", "Q3"}, status `INCOMPLETE`, group totals research = 500 and
education = 250, and grand total 750. -/
theorem roundtrip_two_rows :
    ∃ fr : FacultyRecord,
      runAggregation cfgDemo [rowQ1, rowQ3] = .ok ([("a@x.edu", fr)], []) ∧
      fr.quarters = ["Q1", "Q3"] ∧
      fr.status = .INCOMPLETE ∧
      groupTotal cfgDemo fr "research" = 500 ∧
      groupTotal cfgDemo fr "education" = 250 ∧
      grandTotal fr = 750 :=
  ⟨frDemo, rfl, rfl, rfl, by decide, by decide, by decide⟩

/-- Demo submission: a complete Q1 submission with one 500-point
research activity. -/
def subQ1 : QuarterSubmission :=
  ⟨"a@x.edu", "Alice", "Q1", .COMPLETE,
   [⟨"research.grant_awards", [("title", "R01 award")], 500, "Q1"⟩]⟩

/-- Demo submission: an incomplete Q3 submission with one 250-point
education activity. -/
def subQ3 : QuarterSubmission :=
  ⟨"a@x.edu", "Alice", "Q3", .INCOMPLETE,
   [⟨"education.lectures", [("title", "Grand rounds")], 250, "Q3"⟩]⟩

/-- Witness for C3: swapping the two demo submissions leaves the grand
total unchanged, and the first-seen non-blank name is kept. -/
theorem aggregation_order_invariant_witness :
    grandTotal (aggOne subQ1 [subQ3]) = grandTotal (aggOne subQ3 [subQ1]) ∧
    (aggOne subQ1 [subQ3]).name = subQ1.name :=
  ⟨(aggregation_order_invariant cfgDemo subQ1 subQ3 [subQ3] [subQ1]
      (by decide)).2.1,
   (aggregation_order_invariant cfgDemo subQ1 subQ3 [subQ3] [subQ1]
      (by decide)).2.2.2.2 (by decide) [subQ3] (List.Perm.refl _)⟩

/-! ### Identity extraction and error surfacing (C4, C5) -/

theorem identityKey_email (email fullName : Option String) (rowIndex : Nat)
    (h : blankOpt email = false) :
    identityKey email fullName rowIndex = .ok (lowerStr (trimStr (email.getD ""))) := by
  unfold identityKey
  rw [if_pos h]

theorem identityKey_name (email fullName : Option String) (rowIndex : Nat)
    (h1 : blankOpt email = true) (h2 : blankOpt fullName = false) :
    identityKey email fullName rowIndex = .ok (trimStr (fullName.getD "")) := by
  unfold identityKey
  rw [if_neg (by simp [h1]), if_pos h2]

theorem identityKey_malformed (email fullName : Option String) (rowIndex : Nat)
    (h1 : blankOpt email = true) (h2 : blankOpt fullName = true) :
    identityKey email fullName rowIndex = .error (.MalformedRow rowIndex) := by
  unfold identityKey
  rw [if_neg (by simp [h1]), if_neg (by simp [h2])]

theorem parseSubmission_eq (cfg : CategoryConfig) (r : RawRow) :
    parseSubmission cfg r =
      match identityKey r.email r.fullName r.rowIndex with
      | .error e => .error e
      | .ok k =>
        match parseActivities cfg r.quarter r.groupData with
        | .error e => .error e
        | .ok acts =>
          .ok ⟨k, r.fullName.getD "", r.quarter, parseStatus r.statusField, acts⟩ := by
  unfold parseSubmission
  cases identityKey r.email r.fullName r.rowIndex with
  | error e => rfl
  | ok k =>
    cases parseActivities cfg r.quarter r.groupData with
    | error e => rfl
    | ok acts => rfl

theorem parseSubmission_ok_identity (cfg : CategoryConfig) (r : RawRow)
    (s : QuarterSubmission) (h : parseSubmission cfg r = .ok s) :
    identityKey r.email r.fullName r.rowIndex = .ok s.identity := by
  rw [parseSubmission_eq] at h
  cases hik : identityKey r.email r.fullName r.rowIndex with
  | error e => rw [hik] at h; exact absurd h (by simp)
  | ok k =>
    rw [hik] at h
    cases hpa : parseActivities cfg r.quarter r.groupData with
    | error e => rw [hpa] at h; exact absurd h (by simp)
    | ok acts =>
      rw [hpa] at h
      injection h with h2
      subst h2
      rfl

theorem parseSubmission_malformed (cfg : CategoryConfig) (r : RawRow)
    (h1 : blankOpt r.email = true) (h2 : blankOpt r.fullName = true) :
    parseSubmission cfg r = .error (.MalformedRow r.rowIndex) := by
  rw [parseSubmission_eq, identityKey_malformed _ _ _ h1 h2]

theorem mkActivity_ok (cfg : CategoryConfig) (quarter key : String)
    (fields : List (String × String)) (h : (lookupCat cfg key).isSome) :
    ∃ a, mkActivity cfg quarter key fields = .ok a := by
  unfold mkActivity calcPoints
  cases hl : lookupCat cfg key with
  | none => rw [hl] at h; exact absurd h (by simp)
  | some entry =>
    obtain ⟨dn, rule, grp⟩ := entry
    cases rule with
    | fixed n => exact ⟨_, rfl⟩
    | perCount f mult => exact ⟨_, rfl⟩

theorem mkActivities_ok (cfg : CategoryConfig) (quarter key : String)
    (h : (lookupCat cfg key).isSome) :
    ∀ occs, ∃ as, mkActivities cfg quarter key occs = .ok as := by
  intro occs
  induction occs with
  | nil => exact ⟨[], rfl⟩
  | cons fields rest ih =>
    obtain ⟨a, ha⟩ := mkActivity_ok cfg quarter key fields h
    obtain ⟨as, has⟩ := ih
    exact ⟨a :: as, by simp only [mkActivities, ha, has]; rfl⟩

theorem parseActivities_ok (cfg : CategoryConfig) (quarter : String) :
    ∀ gd, (∀ p ∈ gd, (lookupCat cfg p.1).isSome) →
      ∃ acts, parseActivities cfg quarter gd = .ok acts := by
  intro gd
  induction gd with
  | nil => intro _; exact ⟨[], rfl⟩
  | cons p rest ih =>
    intro h
    obtain ⟨key, occs⟩ := p
    obtain ⟨xs, hxs⟩ :=
      mkActivities_ok cfg quarter key (h (key, occs) (List.mem_cons_self _ _)) occs
    obtain ⟨ys, hys⟩ := ih fun q hq => h q (List.mem_cons_of_mem _ hq)
    exact ⟨xs ++ ys, by simp only [parseActivities, hxs, hys]; rfl⟩

theorem parseSubmission_shape (cfg : CategoryConfig) (r : RawRow)
    (hr : ∀ p ∈ r.groupData, (lookupCat cfg p.1).isSome) :
    (∃ s, parseSubmission cfg r = .ok s) ∨
      parseSubmission cfg r = .error (.MalformedRow r.rowIndex) := by
  obtain ⟨acts, hacts⟩ := parseActivities_ok cfg r.quarter r.groupData hr
  by_cases h1 : blankOpt r.email = false
  · rw [parseSubmission_eq, identityKey_email _ _ _ h1, hacts]
    exact Or.inl ⟨_, rfl⟩
  · have h1t : blankOpt r.email = true := by
      revert h1; cases blankOpt r.email <;> simp
    by_cases h2 : blankOpt r.fullName = false
    · rw [parseSubmission_eq, identityKey_name _ _ _ h1t h2, hacts]
      exact Or.inl ⟨_, rfl⟩
    · have h2t : blankOpt r.fullName = true := by
        revert h2; cases blankOpt r.fullName <;> simp
      exact Or.inr (parseSubmission_malformed cfg r h1t h2t)

theorem parseRows_spec (cfg : CategoryConfig) :
    ∀ rows, (∀ r ∈ rows, ∀ p ∈ r.groupData, (lookupCat cfg p.1).isSome) →
      ∃ ss es, parseRows cfg rows = .ok (ss, es) ∧
        ∀ r ∈ rows, parseSubmission cfg r = .error (.MalformedRow r.rowIndex) →
          r.rowIndex ∈ es := by
  intro rows
  induction rows with
  | nil => intro _; exact ⟨[], [], rfl, by simp⟩
  | cons r rest ih =>
    intro hall
    obtain ⟨ss, es, hpr, hcol⟩ :=
      ih fun r' h' p hp => hall r' (List.mem_cons_of_mem _ h') p hp
    rcases parseSubmission_shape cfg r (hall r (List.mem_cons_self _ _)) with
      ⟨s, hs⟩ | hm
    · refine ⟨s :: ss, es, ?_, ?_⟩
      · simp [parseRows, hpr, hs]
      · intro r' hr' herr
        rcases List.mem_cons.mp hr' with rfl | hr'
        · rw [hs] at herr; exact absurd herr (by simp)
        · exact hcol r' hr' herr
    · refine ⟨ss, r.rowIndex :: es, ?_, ?_⟩
      · simp [parseRows, hpr, hm]
      · intro r' hr' herr
        rcases List.mem_cons.mp hr' with rfl | hr'
        · exact List.mem_cons_self _ _
        · exact List.mem_cons_of_mem _ (hcol r' hr' herr)

theorem findUnknownCat_none (cfg : CategoryConfig) (rows : List RawRow)
    (h : findUnknownCat cfg rows = none) :
    ∀ r ∈ rows, ∀ p ∈ r.groupData, (lookupCat cfg p.1).isSome := by
  intro r hr p hp
  unfold findUnknownCat at h
  rw [List.head?_eq_none_iff, List.filter_eq_nil_iff] at h
  have hmem : p.1 ∈ rows.flatMap fun rr => rr.groupData.map Prod.fst :=
    List.mem_flatMap.mpr ⟨r, hr, List.mem_map.mpr ⟨p, hp, rfl⟩⟩
  have hnp := h p.1 hmem
  cases hl : lookupCat cfg p.1 with
  | none => rw [hl] at hnp; exact absurd rfl hnp
  | some _ => rfl

theorem findUnknownCat_some_of (cfg : CategoryConfig) (rows : List RawRow)
    (h : ∃ r ∈ rows, ∃ p ∈ r.groupData, lookupCat cfg p.1 = none) :
    ∃ k, lookupCat cfg k = none ∧ findUnknownCat cfg rows = some k := by
  obtain ⟨r, hr, p, hp, hnone⟩ := h
  have hmem : p.1 ∈ rows.flatMap fun rr => rr.groupData.map Prod.fst :=
    List.mem_flatMap.mpr ⟨r, hr, List.mem_map.mpr ⟨p, hp, rfl⟩⟩
  have hfmem : p.1 ∈ (rows.flatMap fun rr => rr.groupData.map Prod.fst).filter
      fun k => (lookupCat cfg k).isNone :=
    List.mem_filter.mpr ⟨hmem, by simp [hnone]⟩
  cases hfl : (rows.flatMap fun rr => rr.groupData.map Prod.fst).filter
      fun k => (lookupCat cfg k).isNone with
  | nil => rw [hfl] at hfmem; exact absurd hfmem (by simp)
  | cons a t =>
    have ha : a ∈ (rows.flatMap fun rr => rr.groupData.map Prod.fst).filter
        fun k => (lookupCat cfg k).isNone := by
      rw [hfl]; exact List.mem_cons_self _ _
    have hisNone := (List.mem_filter.mp ha).2
    refine ⟨a, ?_, ?_⟩
    · cases hla : lookupCat cfg a with
      | none => rfl
      | some _ => rw [hla] at hisNone; exact absurd hisNone (by simp)
    · unfold findUnknownCat
      rw [hfl]
      rfl

/-- Claim C4: for every row parsed by the Quarter Submission Parser — if
the email field is blank but the name field is present, the submission's
identity key is the trimmed full name; if the email is present it is
lower-cased and trimmed; and if both email and name are missing, parsing
the row fails with `MalformedRow`, surfaced to the caller with the
offending row index rather than the row being silently skipped. -/
theorem quarter_submission_identity (cfg : CategoryConfig) (r : RawRow) :
    (∀ s, parseSubmission cfg r = .ok s → blankOpt r.email = true →
      blankOpt r.fullName = false → s.identity = trimStr (r.fullName.getD "")) ∧
    (∀ s, parseSubmission cfg r = .ok s → blankOpt r.email = false →
      s.identity = lowerStr (trimStr (r.email.getD ""))) ∧
    (blankOpt r.email = true → blankOpt r.fullName = true →
      parseSubmission cfg r = .error (.MalformedRow r.rowIndex)) ∧
    (∀ rows, r ∈ rows → blankOpt r.email = true → blankOpt r.fullName = true →
      findUnknownCat cfg rows = none →
      ∃ m es, runAggregation cfg rows = .ok (m, es) ∧ r.rowIndex ∈ es) := by
  refine ⟨?_, ?_, parseSubmission_malformed cfg r, ?_⟩
  · intro s hok h1 h2
    have hik := parseSubmission_ok_identity cfg r s hok
    rw [identityKey_name _ _ _ h1 h2] at hik
    exact (Except.ok.inj hik).symm
  · intro s hok h1
    have hik := parseSubmission_ok_identity cfg r s hok
    rw [identityKey_email _ _ _ h1] at hik
    exact (Except.ok.inj hik).symm
  · intro rows hrin h1 h2 hnone
    obtain ⟨ss, es, hpr, hcol⟩ :=
      parseRows_spec cfg rows (findUnknownCat_none cfg rows hnone)
    refine ⟨aggregate ss, es, ?_, ?_⟩
    · unfold runAggregation
      rw [hnone, hpr]
      rfl
    · exact hcol r hrin (parseSubmission_malformed cfg r h1 h2)

/-- Demo row whose email is blank but whose name is present. -/
def rowNameOnly : RawRow := ⟨3, some " ", some " Bob X ", "Q1", "Complete", []⟩

/-- Demo row with neither email nor name. -/
def rowNoIdentity : RawRow := ⟨2, none, none, "Q1", "Complete", []⟩

/-- Witness for C4: the name-fallback identity on a concrete row, and the
malformed-row index surfaced by a concrete run. -/
theorem quarter_submission_identity_witness :
    (⟨"Bob X", " Bob X ", "Q1", .COMPLETE, []⟩ : QuarterSubmission).identity =
      trimStr (rowNameOnly.fullName.getD "") ∧
    ∃ m es, runAggregation cfgDemo [rowNoIdentity] = .ok (m, es) ∧
      rowNoIdentity.rowIndex ∈ es :=
  ⟨(quarter_submission_identity cfgDemo rowNameOnly).1 _ rfl (by decide) (by decide),
   (quarter_submission_identity cfgDemo rowNoIdentity).2.2.2 [rowNoIdentity]
     (List.mem_singleton.mpr rfl) (by decide) (by decide) rfl⟩

/-- Claim C5: whenever some row's repeating-group data carries a category
key with no CategoryConfig entry, the run fails with a
`ConfigurationError` aborting the entire aggregation pass — no partial
FacultyRecord mapping is returned — and the Point Calculator never
silently assigns such an activity 0 points (it fails instead). -/
theorem configuration_error_aborts (cfg : CategoryConfig) (rows : List RawRow)
    (h : ∃ r ∈ rows, ∃ p ∈ r.groupData, lookupCat cfg p.1 = none) :
    (∃ k, lookupCat cfg k = none ∧
      runAggregation cfg rows = .error (.ConfigurationError k)) ∧
    (∀ result, runAggregation cfg rows ≠ .ok result) ∧
    (∀ key fields, lookupCat cfg key = none →
      calcPoints cfg key fields = .error (.ConfigurationError key)) := by
  obtain ⟨k, hk, hfind⟩ := findUnknownCat_some_of cfg rows h
  have hrun : runAggregation cfg rows = .error (.ConfigurationError k) := by
    unfold runAggregation
    rw [hfind]
  refine ⟨⟨k, hk, hrun⟩, ?_, fun key fields => calcPoints_unknown cfg key fields⟩
  intro result hok
  rw [hrun] at hok
  exact absurd hok (by simp)

/-- Demo row carrying a category key absent from the demo configuration. -/
def rowBadCat : RawRow :=
  ⟨4, some "b@x.edu", some "Bob", "Q1", "Complete",
   [("unknown.cat", [[("title", "t")]])]⟩

/-- Witness for C5: a concrete run with an unconfigured category key
aborts with a `ConfigurationError`. -/
theorem configuration_error_aborts_witness :
    ∃ k, lookupCat cfgDemo k = none ∧
      runAggregation cfgDemo [rowQ1, rowBadCat] = .error (.ConfigurationError k) :=
  (configuration_error_aborts cfgDemo [rowQ1, rowBadCat]
    ⟨rowBadCat, by decide, ("unknown.cat", [[("title", "t")]]), by decide,
      by decide⟩).1

end AAA
